import Mathlib

set_option maxRecDepth 100000

/-!
Verification of the receding-horizon DAC code-selection engine
(`LM/lin_method_mpc.py`, class `MPC`, and `LM/lin_method_mpc_bin.py`,
class `MPC_BIN`), plus the rate-limited variant `MHOQ_RLIM_RM` used by
`run_me.py`.

The engine is embedded shallowly: real-valued data is modelled over `ℚ`,
the state vector of the reconstruction filter is a function `Fin n → ℚ`,
and the external MIQP solver is modelled as an exact global minimiser of
the per-step objective over the finite set of admissible integer code
sequences, with a deterministic (first-in-enumeration-order, i.e.
lexicographic) tie rule.  Python list indexing `l[i]` is modelled by
`List.getD l i 0`; all indices produced by the engine are in range in the
intended configurations.
-/

/-- Quantiser model selector stored in `self.QMODEL`: the source handles
exactly the two cases `1` (ideal level table) and `2` (measured level
table) in its `match self.QMODEL` statements. -/
inductive QModel where
  | ideal
  | measured
deriving DecidableEq

/-- The parameter record stored by `MPC.__init__` — `MPC_BIN.__init__`
stores exactly the same fields, so both classes share this record:
bit width `Nb`, quantiser step `Qstep` (the constructor stores
`abs(Qstep)`), the model selector `QMODEL`, and the state-space matrices
`A` (n×n), `B` (n×1), `C` (1×n), `D` (scalar) of the reconstruction
filter, with state dimension `n`. -/
structure MPC where
  n : ℕ
  Nb : ℕ
  Qstep : ℚ
  QMODEL : QModel
  A : Fin n → Fin n → ℚ
  B : Fin n → ℚ
  C : Fin n → ℚ
  D : ℚ

/-- `MPC.__init__` (identical to `MPC_BIN.__init__`): stores the
arguments, replacing `Qstep` by `abs(Qstep)`; the source performs no
validation of any argument. -/
def MPC.init (n Nb : ℕ) (Qstep : ℚ) (QMODEL : QModel)
    (A : Fin n → Fin n → ℚ) (B : Fin n → ℚ) (C : Fin n → ℚ) (D : ℚ) :
    MPC :=
  ⟨n, Nb, |Qstep|, QMODEL, A, B, C, D⟩

/-- `MPC.__init__` viewed as a fallible construction: the source
constructor body is six attribute assignments with no validation and no
raise statement, so as an `Except`-valued computation it always returns
`Except.ok`. -/
def MPC.initE (n Nb : ℕ) (Qstep : ℚ) (QMODEL : QModel)
    (A : Fin n → Fin n → ℚ) (B : Fin n → ℚ) (C : Fin n → ℚ) (D : ℚ) :
    Except String MPC :=
  Except.ok (MPC.init n Nb Qstep QMODEL A B C D)

/-- `MPC.q_scaling` (identical in `MPC_BIN`): `X / Qstep + 2**(Nb - 1)`,
applied elementwise to arrays.  `Nb - 1` is Python integer subtraction,
hence the exponent lives in `ℤ`. -/
def MPC.q_scaling (conf : MPC) (x : ℚ) : ℚ :=
  x / conf.Qstep + (2 : ℚ) ^ ((conf.Nb : ℤ) - 1)

/-- The scalar `C @ x` for the 1×n output row of the state-space model. -/
def MPC.outRow (conf : MPC) (st : Fin conf.n → ℚ) : ℚ :=
  (List.ofFn fun i => conf.C i * st i).sum

/-- `MPC.state_prediction` (identical in `MPC_BIN`):
`A @ st + B * con`. -/
def MPC.state_prediction (conf : MPC) (st : Fin conf.n → ℚ) (con : ℚ) :
    Fin conf.n → ℚ :=
  fun i => (List.ofFn fun k => conf.A i k * st k).sum + conf.B i * con

/-- The two-way level-table selection `match self.QMODEL: case 1 / case 2`
appearing in both `MPC.get_codes` (once, before the loop) and
`MPC_BIN.get_codes` (per iteration, after the solve). -/
def qlsOf (QMODEL : QModel) (ideal measured : List ℚ) : List ℚ :=
  match QMODEL with
  | QModel.ideal => ideal
  | QModel.measured => measured

/-- The sliding window `X[j], ..., X[j + N - 1]` of scaled reference
samples consumed by iteration `j` of the receding-horizon loop. -/
def winList (X : List ℚ) (j N : ℕ) : List ℚ :=
  (List.range N).map fun i => X.getD (j + i) 0

/-- Objective of the integer-encoded horizon problem built by
`MPC.get_codes`: per horizon step `i` the error is
`e_t = C @ x_i + D * (u_i - X[j+i])` and the equality constraint
`x_{i+1} = A @ x_i + B * (u_i - X[j+i])` pins the continuous state
variables to the recursion, so the minimisation over `(u, x)` reduces to
a function of the integer controls `u` alone; `refs` is the reference
window. -/
def intObj (conf : MPC) : (Fin conf.n → ℚ) → List ℕ → List ℚ → ℚ
  | _, [], _ => 0
  | st, c :: cs, refs =>
    let con : ℚ := (c : ℚ) - refs.headD 0
    let e : ℚ := conf.outRow st + conf.D * con
    e * e + intObj conf (conf.state_prediction st con) cs refs.tail

/-- Objective of the binary one-hot encoded horizon problem built by
`MPC_BIN.get_codes`: the one-hot constraint `sum u[:, i] == 1` makes each
column select exactly one code `c`, and the realized control is the inner
product `QL_I @ u[:, i] = QL_I[c]`, so the problem is a minimisation over
code sequences with the scaled ideal level looked up per step. -/
def binObj (conf : MPC) (QLI : List ℚ) :
    (Fin conf.n → ℚ) → List ℕ → List ℚ → ℚ
  | _, [], _ => 0
  | st, c :: cs, refs =>
    let con : ℚ := QLI.getD c 0 - refs.headD 0
    let e : ℚ := conf.outRow st + conf.D * con
    e * e + binObj conf QLI (conf.state_prediction st con) cs refs.tail

/-- All integer code sequences of length `N` with entries in
`[0, K - 1]`, in lexicographic order: the feasible set of the integer
decision variables `u` (bounds `lb = 0`, `ub = 2**Nb - 1`), equivalently
of the one-hot columns of the binary encoding. -/
def codeSeqs (K : ℕ) : ℕ → List (List ℕ)
  | 0 => [[]]
  | N + 1 =>
    (List.range K).flatMap fun c => (codeSeqs K N).map fun s => c :: s

/-- First-minimum selection: the element of `best :: rest` with the
smallest objective value, preferring the earliest in case of a tie.
This models the external solver returning a global optimum with a
deterministic tie rule. -/
def minBy {α : Type} (f : α → ℚ) : α → List α → α
  | best, [] => best
  | best, x :: xs => if f x < f best then minBy f x xs else minBy f best xs

/-- The per-step solve of `MPC.get_codes` (lines 112-162): the solver is
modelled as an exact global minimiser of the induced integer-encoding
objective over the feasible code sequences. -/
def solveIntHorizon (conf : MPC) (N : ℕ) (st : Fin conf.n → ℚ)
    (refs : List ℚ) : List ℕ :=
  match codeSeqs (2 ^ conf.Nb) N with
  | [] => []
  | a :: rest => minBy (fun u => intObj conf st u refs) a rest

/-- The per-step solve of `MPC_BIN.get_codes` (lines 101-172), after
decoding the one-hot columns back to code indices. -/
def solveBinHorizon (conf : MPC) (N : ℕ) (QLI : List ℚ)
    (st : Fin conf.n → ℚ) (refs : List ℚ) : List ℕ :=
  match codeSeqs (2 ^ conf.Nb) N with
  | [] => []
  | a :: rest => minBy (fun u => binObj conf QLI st u refs) a rest

/-- The receding-horizon loop of `MPC.get_codes` (lines 109-175): per
iteration it solves the horizon problem at the current state, appends the
first element `C_MPC[0]` of the solved control sequence, and advances the
plant state by `state_prediction(init_state, QLS[C_MPC[0]] - X[j])`. -/
def mpcLoop (conf : MPC) (N : ℕ) (X QLS : List ℚ) :
    ℕ → ℕ → (Fin conf.n → ℚ) → List ℕ
  | 0, _, _ => []
  | steps + 1, j, st =>
    let u := solveIntHorizon conf N st (winList X j N)
    let c := u.headD 0
    let con := QLS.getD c 0 - X.getD j 0
    c :: mpcLoop conf N X QLS steps (j + 1) (conf.state_prediction st con)

/-- `MPC.get_codes`: scales the reference, selects the level table once
by `QMODEL` (ideal for `1`, measured for `2`) and scales it, then runs
the receding-horizon loop for `X.size - N_PRED` iterations starting from
the zero state. -/
def MPC.get_codes (conf : MPC) (N_PRED : ℕ)
    (Xcs YQns MLns : List ℚ) : List ℕ :=
  let X := Xcs.map conf.q_scaling
  let QLS := (qlsOf conf.QMODEL YQns MLns).map conf.q_scaling
  mpcLoop conf N_PRED X QLS (X.length - N_PRED) 0 (fun _ => 0)

/-- The receding-horizon loop of `MPC_BIN.get_codes` (lines 99-187): the
horizon problem is built from the scaled ideal table `QL_I` only; after
the solve, the applied level `U_opt` is looked up in `QL_I` or `QL_M`
according to `QMODEL` and the plant state is advanced by
`state_prediction(init_state, U_opt - Xcs[j])`. -/
def mpcBinLoop (conf : MPC) (N : ℕ) (X QLI QLM : List ℚ) :
    ℕ → ℕ → (Fin conf.n → ℚ) → List ℕ
  | 0, _, _ => []
  | steps + 1, j, st =>
    let u := solveBinHorizon conf N QLI st (winList X j N)
    let c := u.headD 0
    let U_opt := (qlsOf conf.QMODEL QLI QLM).getD c 0
    let con := U_opt - X.getD j 0
    c :: mpcBinLoop conf N X QLI QLM steps (j + 1)
      (conf.state_prediction st con)

/-- `MPC_BIN.get_codes`: scales the reference and both level tables, then
runs the binary-encoding receding-horizon loop for `Xcs.size - N_PRED`
iterations starting from the zero state. -/
def MPC_BIN.get_codes (conf : MPC) (N_PRED : ℕ)
    (X YQns MLns : List ℚ) : List ℕ :=
  let Xcs := X.map conf.q_scaling
  let QL_I := YQns.map conf.q_scaling
  let QL_M := MLns.map conf.q_scaling
  mpcBinLoop conf N_PRED Xcs QL_I QL_M (Xcs.length - N_PRED) 0 (fun _ => 0)

/-- The sequence of plant states that `MPC.get_codes` passes through:
state `0` is the zero vector and state `j+1` arises from state `j` by the
single update `state_prediction(st, QLS[c] - X[j])`, where `c` is the
first element of the horizon solution computed at state `j`. -/
def mpcTrace (conf : MPC) (N : ℕ) (X QLS : List ℚ) : ℕ → Fin conf.n → ℚ
  | 0 => fun _ => 0
  | j + 1 =>
    conf.state_prediction (mpcTrace conf N X QLS j)
      (QLS.getD
        ((solveIntHorizon conf N (mpcTrace conf N X QLS j)
          (winList X j N)).headD 0) 0 - X.getD j 0)

/-- The sequence of plant states that `MPC_BIN.get_codes` passes through:
as `mpcTrace`, but the horizon problem uses the scaled ideal table `QL_I`
while the applied level is chosen per `QMODEL`. -/
def mpcBinTrace (conf : MPC) (N : ℕ) (X QLI QLM : List ℚ) :
    ℕ → Fin conf.n → ℚ
  | 0 => fun _ => 0
  | j + 1 =>
    conf.state_prediction (mpcBinTrace conf N X QLI QLM j)
      ((qlsOf conf.QMODEL QLI QLM).getD
        ((solveBinHorizon conf N QLI (mpcBinTrace conf N X QLI QLM j)
          (winList X j N)).headD 0) 0 - X.getD j 0)

/-- The decode `int(np.nonzero(u_val[:, 0])[0][0])` of `MPC_BIN.get_codes`
applied to the raw solver values: with
`u_val = values[0 : 2^Nb * N_PRED].reshape(2^Nb, N_PRED)` stored
row-major, `u_val[r, 0] = values[r * N_PRED]`, and the code is the first
row index with a non-zero entry in column 0. -/
def decodeCol0 (K N : ℕ) (vals : List ℚ) : ℕ :=
  ((List.range K).filter fun r => decide (vals.getD (r * N) 0 ≠ 0)).headD 0

/-- The loop of `MPC_BIN.get_codes` with the solver outcome made
explicit, as executed by the source (lines 150-187): `oracle j = some v`
models `m.Status == GRB.OPTIMAL` with variable values `v`, in which case
`values` is rebound; `oracle j = none` models any other status, in which
case the source merely evaluates `SystemExit("No optimal solution
found.")` WITHOUT raising it, so execution falls through and the decode
reads the `values` bound by the latest successful iteration; if no
iteration has succeeded yet, referencing `values` raises a `NameError`,
which aborts the run (modelled by the `none` result). -/
def mpcBinFallibleLoop (conf : MPC) (N : ℕ) (X QLI QLM : List ℚ)
    (oracle : ℕ → Option (List ℚ)) :
    ℕ → ℕ → (Fin conf.n → ℚ) → Option (List ℚ) → Option (List ℕ)
  | 0, _, _, _ => some []
  | steps + 1, j, st, prevVals =>
    let vals? : Option (List ℚ) :=
      match oracle j with
      | some v => some v
      | none => prevVals
    match vals? with
    | none => none
    | some vals =>
      let c := decodeCol0 (2 ^ conf.Nb) N vals
      let U_opt := (qlsOf conf.QMODEL QLI QLM).getD c 0
      let con := U_opt - X.getD j 0
      Option.map (fun rest => c :: rest)
        (mpcBinFallibleLoop conf N X QLI QLM oracle steps (j + 1)
          (conf.state_prediction st con) vals?)

/-- `MPC_BIN.get_codes` with the per-iteration solver outcome supplied by
`oracle` (see `mpcBinFallibleLoop`); with an all-`some` oracle this is the
control flow of the source verbatim. -/
def MPC_BIN.get_codes_fallible (conf : MPC) (N_PRED : ℕ)
    (X YQns MLns : List ℚ) (oracle : ℕ → Option (List ℚ)) :
    Option (List ℕ) :=
  let Xcs := X.map conf.q_scaling
  let QL_I := YQns.map conf.q_scaling
  let QL_M := MLns.map conf.q_scaling
  mpcBinFallibleLoop conf N_PRED Xcs QL_I QL_M oracle
    (Xcs.length - N_PRED) 0 (fun _ => 0) none

/-- Modelled from the spec: the admissibility of a code `c` under the
rate limit relative to the previously chosen code (`none` before any code
is applied): `|u_i - u_{i-1}| <= Step`.  The rate-limited variant
`MHOQ_RLIM_RM` itself lives in `LM/lin_method_mpc_rl_rm.py`, which is not
present under src/ (only its caller in `run_me.py` is). -/
def nearOk (s : ℕ) (prev : Option ℕ) (c : ℕ) : Bool :=
  match prev with
  | none => true
  | some p => decide (((c : ℤ) - (p : ℤ)).natAbs ≤ s)

/-- Modelled from the spec: the feasible code sequences of the
rate-limited horizon problem — integer codes in `[0, 2^Nb - 1]` with
`|u_i - u_{i-1}| <= Step` for every adjacent pair of horizon decision
variables, and for `i = 0` relative to the last applied code. -/
def rlCodeSeqs (K s : ℕ) : Option ℕ → ℕ → List (List ℕ)
  | _, 0 => [[]]
  | prev, N + 1 =>
    ((List.range K).filter (nearOk s prev)).flatMap fun c =>
      (rlCodeSeqs K s (some c) N).map fun u => c :: u

/-- Modelled from the spec: the per-step solve of the rate-limited
variant — the integer-encoding objective minimised over the
rate-limit-feasible code sequences. -/
def solveRlHorizon (conf : MPC) (N s : ℕ) (prev : Option ℕ)
    (st : Fin conf.n → ℚ) (refs : List ℚ) : List ℕ :=
  match rlCodeSeqs (2 ^ conf.Nb) s prev N with
  | [] => []
  | a :: rest => minBy (fun u => intObj conf st u refs) a rest

/-- Modelled from the spec: the receding-horizon loop of
`MHOQ_RLIM_RM.get_codes`, tracking the last applied code for the `i = 0`
rate-limit constraint; otherwise identical to `mpcLoop`. -/
def mhoqRlLoop (conf : MPC) (N s : ℕ) (X QLS : List ℚ) :
    ℕ → ℕ → (Fin conf.n → ℚ) → Option ℕ → List ℕ
  | 0, _, _, _ => []
  | steps + 1, j, st, prev =>
    let u := solveRlHorizon conf N s prev st (winList X j N)
    let c := u.headD 0
    let con := QLS.getD c 0 - X.getD j 0
    c :: mhoqRlLoop conf N s X QLS steps (j + 1)
      (conf.state_prediction st con) (some c)

/-- Modelled from the spec: `MHOQ_RLIM_RM.get_codes(N_PRED, Xcs, YQns,
MLns, Step)` as invoked by `run_me.py` — the integer-encoding engine with
the rate-limit overlay of spec section 4.5. -/
def MHOQ_RLIM_RM.get_codes (conf : MPC) (N_PRED : ℕ)
    (Xcs YQns MLns : List ℚ) (Step : ℕ) : List ℕ :=
  let X := Xcs.map conf.q_scaling
  let QLS := (qlsOf conf.QMODEL YQns MLns).map conf.q_scaling
  mhoqRlLoop conf N_PRED Step X QLS (X.length - N_PRED) 0 (fun _ => 0) none

/-- The rate-limit step relation: codes `a` then `b` differ by at most
`s`. -/
def stepOkI (s a b : ℕ) : Prop := ((b : ℤ) - (a : ℤ)).natAbs ≤ s

/-- A small concrete configuration (first-order plant, 1-bit quantiser)
used to instantiate hypotheses of the claim theorems on concrete runs. -/
def cfgA : MPC :=
  MPC.init 1 1 1 QModel.ideal (fun _ _ => 0) (fun _ => 1) (fun _ => 1) 1

/-- 3-bit configuration with unit step and direct feedthrough, whose
scaled ideal table is the identity on codes 0..7. -/
def cfgB : MPC :=
  MPC.init 1 3 1 QModel.ideal (fun _ _ => 0) (fun _ => 1) (fun _ => 1) 1

/-- Ideal level table whose `q_scaling` image is `[0, 1, ..., 7]`. -/
def yqB : List ℚ := [-4, -3, -2, -1, 0, 1, 2, 3]

/-- The scenario configuration of claim C6: `Nb = 4`, `Qstep = 1`, plant
`A = 0, B = 1, C = 1, D = 0` (one-sample delay, no filtering). -/
def cfgC6 : MPC :=
  MPC.init 1 4 1 QModel.ideal (fun _ _ => 0) (fun _ => 1) (fun _ => 1) 0

/-- Ideal level table whose `q_scaling` image is the code-space staircase
`[0, 1, ..., 15]`; the raw reference sample `0` scales to the mid-code
value `8`. -/
def yqC6 : List ℚ :=
  [-8, -7, -6, -5, -4, -3, -2, -1, 0, 1, 2, 3, 4, 5, 6, 7]

/-! ## Basic facts about the solver model -/

theorem minBy_mem {α : Type} (f : α → ℚ) (a : α) (l : List α) :
    minBy f a l ∈ a :: l := by
  induction l generalizing a with
  | nil => simp [minBy]
  | cons x xs ih =>
    rw [minBy]
    split
    · have := ih x
      simp only [List.mem_cons] at this ⊢
      tauto
    · have := ih a
      simp only [List.mem_cons] at this ⊢
      tauto

theorem minBy_congr {α : Type} (f g : α → ℚ) (a : α) (l : List α)
    (h : ∀ x ∈ a :: l, f x = g x) : minBy f a l = minBy g a l := by
  induction l generalizing a with
  | nil => rfl
  | cons x xs ih =>
    rw [minBy, minBy]
    rw [h x (by simp), h a (by simp)]
    split
    · exact ih x fun y hy => h y (by simp only [List.mem_cons] at hy ⊢; tauto)
    · exact ih a fun y hy => h y (by simp only [List.mem_cons] at hy ⊢; tauto)

theorem mem_codeSeqs {K N : ℕ} {u : List ℕ} :
    u ∈ codeSeqs K N ↔ u.length = N ∧ ∀ c ∈ u, c < K := by
  induction N generalizing u with
  | zero =>
    simp only [codeSeqs, List.mem_singleton, List.length_eq_zero]
    constructor
    · rintro rfl
      simp
    · rintro ⟨rfl, -⟩
      rfl
  | succ N ih =>
    simp only [codeSeqs, List.mem_flatMap, List.mem_map, List.mem_range]
    constructor
    · rintro ⟨c, hc, s, hs, rfl⟩
      obtain ⟨hlen, hbd⟩ := ih.mp hs
      refine ⟨by simp [hlen], ?_⟩
      intro d hd
      rcases List.mem_cons.mp hd with rfl | hd
      · exact hc
      · exact hbd d hd
    · rintro ⟨hlen, hbd⟩
      cases u with
      | nil => simp at hlen
      | cons c s =>
        refine ⟨c, hbd c (by simp), s, ih.mpr ⟨by simpa using hlen, ?_⟩, rfl⟩
        intro d hd
        exact hbd d (List.mem_cons_of_mem _ hd)

theorem replicate_mem_codeSeqs {K N : ℕ} (hK : 0 < K) :
    List.replicate N 0 ∈ codeSeqs K N := by
  refine mem_codeSeqs.mpr ⟨List.length_replicate _ _, ?_⟩
  intro c hc
  have := List.eq_of_mem_replicate hc
  omega

theorem codeSeqs_ne_nil {K N : ℕ} (hK : 0 < K) : codeSeqs K N ≠ [] :=
  List.ne_nil_of_mem (replicate_mem_codeSeqs hK)

theorem solveIntHorizon_mem (conf : MPC) (N : ℕ) (st : Fin conf.n → ℚ)
    (refs : List ℚ) :
    solveIntHorizon conf N st refs ∈ codeSeqs (2 ^ conf.Nb) N := by
  rw [solveIntHorizon]
  split
  · exact absurd (by assumption) (codeSeqs_ne_nil (Nat.pos_pow_of_pos _ two_pos))
  · next a rest h =>
    rw [h]
    exact minBy_mem _ a rest

theorem solveBinHorizon_mem (conf : MPC) (N : ℕ) (QLI : List ℚ)
    (st : Fin conf.n → ℚ) (refs : List ℚ) :
    solveBinHorizon conf N QLI st refs ∈ codeSeqs (2 ^ conf.Nb) N := by
  rw [solveBinHorizon]
  split
  · exact absurd (by assumption) (codeSeqs_ne_nil (Nat.pos_pow_of_pos _ two_pos))
  · next a rest h =>
    rw [h]
    exact minBy_mem _ a rest

theorem headD_lt_of_mem_codeSeqs {K N : ℕ} {u : List ℕ} (hK : 0 < K)
    (hu : u ∈ codeSeqs K N) : u.headD 0 < K := by
  cases u with
  | nil => simpa using hK
  | cons c s => exact (mem_codeSeqs.mp hu).2 c (by simp)

/-! ## Lengths (C4) and code range (C3) of the receding-horizon loops -/

theorem mpcLoop_length (conf : MPC) (N : ℕ) (X QLS : List ℚ) :
    ∀ steps j st, (mpcLoop conf N X QLS steps j st).length = steps := by
  intro steps
  induction steps with
  | zero => intro j st; rfl
  | succ k ih => intro j st; simp [mpcLoop, ih]

theorem mpcBinLoop_length (conf : MPC) (N : ℕ) (X QLI QLM : List ℚ) :
    ∀ steps j st, (mpcBinLoop conf N X QLI QLM steps j st).length = steps := by
  intro steps
  induction steps with
  | zero => intro j st; rfl
  | succ k ih => intro j st; simp [mpcBinLoop, ih]

theorem mpcLoop_mem_lt (conf : MPC) (N : ℕ) (X QLS : List ℚ) :
    ∀ steps j st c, c ∈ mpcLoop conf N X QLS steps j st →
      c < 2 ^ conf.Nb := by
  intro steps
  induction steps with
  | zero => intro j st c hc; simp [mpcLoop] at hc
  | succ k ih =>
    intro j st c hc
    rw [mpcLoop] at hc
    rcases List.mem_cons.mp hc with rfl | hc
    · exact headD_lt_of_mem_codeSeqs (Nat.pos_pow_of_pos _ two_pos)
        (solveIntHorizon_mem conf N st (winList X j N))
    · exact ih _ _ _ hc

theorem mpcBinLoop_mem_lt (conf : MPC) (N : ℕ) (X QLI QLM : List ℚ) :
    ∀ steps j st c, c ∈ mpcBinLoop conf N X QLI QLM steps j st →
      c < 2 ^ conf.Nb := by
  intro steps
  induction steps with
  | zero => intro j st c hc; simp [mpcBinLoop] at hc
  | succ k ih =>
    intro j st c hc
    rw [mpcBinLoop] at hc
    rcases List.mem_cons.mp hc with rfl | hc
    · exact headD_lt_of_mem_codeSeqs (Nat.pos_pow_of_pos _ two_pos)
        (solveBinHorizon_mem conf N QLI st (winList X j N))
    · exact ih _ _ _ hc

/-! ## State traces of the receding-horizon loops (C1) -/

theorem getD_map_range {β : Type} [Inhabited β] (f : ℕ → β) (d : β)
    {s j : ℕ} (h : j < s) : ((List.range s).map f).getD j d = f j := by
  rw [List.getD_eq_getElem?_getD, List.getElem?_map, List.getElem?_range h]
  rfl

theorem mpcLoop_getD_trace (conf : MPC) (N : ℕ) (X QLS : List ℚ) :
    ∀ steps j i, i < steps →
      (mpcLoop conf N X QLS steps j (mpcTrace conf N X QLS j)).getD i 0 =
        (solveIntHorizon conf N (mpcTrace conf N X QLS (j + i))
          (winList X (j + i) N)).headD 0 := by
  intro steps
  induction steps with
  | zero => intro j i hi; omega
  | succ k ih =>
    intro j i hi
    have hst : conf.state_prediction (mpcTrace conf N X QLS j)
        (QLS.getD
          ((solveIntHorizon conf N (mpcTrace conf N X QLS j)
            (winList X j N)).headD 0) 0 - X.getD j 0) =
        mpcTrace conf N X QLS (j + 1) := rfl
    rw [mpcLoop]
    simp only [hst]
    cases i with
    | zero => rw [List.getD_cons_zero, Nat.add_zero]
    | succ i =>
      rw [List.getD_cons_succ, show j + (i + 1) = j + 1 + i by omega]
      exact ih (j + 1) i (by omega)

theorem mpcBinLoop_getD_trace (conf : MPC) (N : ℕ) (X QLI QLM : List ℚ) :
    ∀ steps j i, i < steps →
      (mpcBinLoop conf N X QLI QLM steps j
        (mpcBinTrace conf N X QLI QLM j)).getD i 0 =
        (solveBinHorizon conf N QLI (mpcBinTrace conf N X QLI QLM (j + i))
          (winList X (j + i) N)).headD 0 := by
  intro steps
  induction steps with
  | zero => intro j i hi; omega
  | succ k ih =>
    intro j i hi
    have hst : conf.state_prediction (mpcBinTrace conf N X QLI QLM j)
        ((qlsOf conf.QMODEL QLI QLM).getD
          ((solveBinHorizon conf N QLI (mpcBinTrace conf N X QLI QLM j)
            (winList X j N)).headD 0) 0 - X.getD j 0) =
        mpcBinTrace conf N X QLI QLM (j + 1) := rfl
    rw [mpcBinLoop]
    simp only [hst]
    cases i with
    | zero => rw [List.getD_cons_zero, Nat.add_zero]
    | succ i =>
      rw [List.getD_cons_succ, show j + (i + 1) = j + 1 + i by omega]
      exact ih (j + 1) i (by omega)

theorem mpc_get_codes_getD (conf : MPC) (N : ℕ) (Xcs YQns MLns : List ℚ)
    (i : ℕ) (hi : i < Xcs.length - N) :
    (MPC.get_codes conf N Xcs YQns MLns).getD i 0 =
      (solveIntHorizon conf N
        (mpcTrace conf N (Xcs.map conf.q_scaling)
          ((qlsOf conf.QMODEL YQns MLns).map conf.q_scaling) i)
        (winList (Xcs.map conf.q_scaling) i N)).headD 0 := by
  rw [show MPC.get_codes conf N Xcs YQns MLns =
      mpcLoop conf N (Xcs.map conf.q_scaling)
        ((qlsOf conf.QMODEL YQns MLns).map conf.q_scaling)
        ((Xcs.map conf.q_scaling).length - N) 0
        (mpcTrace conf N (Xcs.map conf.q_scaling)
          ((qlsOf conf.QMODEL YQns MLns).map conf.q_scaling) 0) from rfl]
  rw [mpcLoop_getD_trace conf N _ _ _ 0 i (by simpa using hi), Nat.zero_add]

theorem mpc_bin_get_codes_getD (conf : MPC) (N : ℕ)
    (Xcs YQns MLns : List ℚ) (i : ℕ) (hi : i < Xcs.length - N) :
    (MPC_BIN.get_codes conf N Xcs YQns MLns).getD i 0 =
      (solveBinHorizon conf N (YQns.map conf.q_scaling)
        (mpcBinTrace conf N (Xcs.map conf.q_scaling)
          (YQns.map conf.q_scaling) (MLns.map conf.q_scaling) i)
        (winList (Xcs.map conf.q_scaling) i N)).headD 0 := by
  rw [show MPC_BIN.get_codes conf N Xcs YQns MLns =
      mpcBinLoop conf N (Xcs.map conf.q_scaling) (YQns.map conf.q_scaling)
        (MLns.map conf.q_scaling) ((Xcs.map conf.q_scaling).length - N) 0
        (mpcBinTrace conf N (Xcs.map conf.q_scaling)
          (YQns.map conf.q_scaling) (MLns.map conf.q_scaling) 0) from rfl]
  rw [mpcBinLoop_getD_trace conf N _ _ _ _ 0 i (by simpa using hi),
    Nat.zero_add]

theorem mpc_get_codes_length (conf : MPC) (N : ℕ) (Xcs YQns MLns : List ℚ) :
    (MPC.get_codes conf N Xcs YQns MLns).length = Xcs.length - N := by
  rw [show MPC.get_codes conf N Xcs YQns MLns =
      mpcLoop conf N (Xcs.map conf.q_scaling)
        ((qlsOf conf.QMODEL YQns MLns).map conf.q_scaling)
        ((Xcs.map conf.q_scaling).length - N) 0 (fun _ => 0) from rfl]
  rw [mpcLoop_length, List.length_map]

theorem mpc_bin_get_codes_length (conf : MPC) (N : ℕ)
    (Xcs YQns MLns : List ℚ) :
    (MPC_BIN.get_codes conf N Xcs YQns MLns).length = Xcs.length - N := by
  rw [show MPC_BIN.get_codes conf N Xcs YQns MLns =
      mpcBinLoop conf N (Xcs.map conf.q_scaling) (YQns.map conf.q_scaling)
        (MLns.map conf.q_scaling) ((Xcs.map conf.q_scaling).length - N) 0
        (fun _ => 0) from rfl]
  rw [mpcBinLoop_length, List.length_map]

/-! ## Claim theorems -/

/-- C1: in every run of `MPC.get_codes` and of `MPC_BIN.get_codes` there
is a state trajectory `st` starting at the zero vector such that the code
emitted at step `j` is the first element of the horizon solution computed
at state `st j`, and `st (j+1)` arises from `st j` by the single update
`state_prediction(st j, QLS[c_j] - X[j])`, where `c_j` is that emitted
code and `QLS` is the scaled level table selected by `QMODEL` (ideal for
`1`, measured for `2`).  The plant state is therefore mutated exactly once
per emitted code, only through the realized level of the applied code; the
optimizer's predicted state variables beyond index 0 never enter the
update. -/
theorem mpc_state_update_realized_level (conf : MPC) (N : ℕ)
    (Xcs YQns MLns : List ℚ) :
    (∃ st : ℕ → Fin conf.n → ℚ,
      st 0 = (fun _ => 0) ∧
      ∀ j : Fin (MPC.get_codes conf N Xcs YQns MLns).length,
        (MPC.get_codes conf N Xcs YQns MLns).getD j.val 0 =
          (solveIntHorizon conf N (st j.val)
            (winList (Xcs.map conf.q_scaling) j.val N)).headD 0 ∧
        st (j.val + 1) =
          conf.state_prediction (st j.val)
            (((qlsOf conf.QMODEL YQns MLns).map conf.q_scaling).getD
              ((MPC.get_codes conf N Xcs YQns MLns).getD j.val 0) 0 -
              (Xcs.map conf.q_scaling).getD j.val 0)) ∧
    (∃ st : ℕ → Fin conf.n → ℚ,
      st 0 = (fun _ => 0) ∧
      ∀ j : Fin (MPC_BIN.get_codes conf N Xcs YQns MLns).length,
        (MPC_BIN.get_codes conf N Xcs YQns MLns).getD j.val 0 =
          (solveBinHorizon conf N (YQns.map conf.q_scaling) (st j.val)
            (winList (Xcs.map conf.q_scaling) j.val N)).headD 0 ∧
        st (j.val + 1) =
          conf.state_prediction (st j.val)
            ((qlsOf conf.QMODEL (YQns.map conf.q_scaling)
              (MLns.map conf.q_scaling)).getD
              ((MPC_BIN.get_codes conf N Xcs YQns MLns).getD j.val 0) 0 -
              (Xcs.map conf.q_scaling).getD j.val 0)) := by
  constructor
  · refine ⟨mpcTrace conf N (Xcs.map conf.q_scaling)
      ((qlsOf conf.QMODEL YQns MLns).map conf.q_scaling), rfl, ?_⟩
    intro j
    have hj : j.val < Xcs.length - N :=
      lt_of_lt_of_eq j.isLt (mpc_get_codes_length conf N Xcs YQns MLns)
    refine ⟨mpc_get_codes_getD conf N Xcs YQns MLns j.val hj, ?_⟩
    rw [mpc_get_codes_getD conf N Xcs YQns MLns j.val hj]
    rfl
  · refine ⟨mpcBinTrace conf N (Xcs.map conf.q_scaling)
      (YQns.map conf.q_scaling) (MLns.map conf.q_scaling), rfl, ?_⟩
    intro j
    have hj : j.val < Xcs.length - N :=
      lt_of_lt_of_eq j.isLt (mpc_bin_get_codes_length conf N Xcs YQns MLns)
    refine ⟨mpc_bin_get_codes_getD conf N Xcs YQns MLns j.val hj, ?_⟩
    rw [mpc_bin_get_codes_getD conf N Xcs YQns MLns j.val hj]
    rfl

/-- C3: every element of the code sequence returned by `MPC.get_codes`
(whose decision variables carry bounds `lb = 0`, `ub = 2^Nb - 1`) and by
`MPC_BIN.get_codes` (whose codes are indices of one-hot vectors of length
`2^Nb`) is an integer in `[0, 2^Nb - 1]`. -/
theorem mpc_codes_in_range (conf : MPC) (N : ℕ) (Xcs YQns MLns : List ℚ)
    (c : ℕ) :
    (c ∈ MPC.get_codes conf N Xcs YQns MLns → c < 2 ^ conf.Nb) ∧
    (c ∈ MPC_BIN.get_codes conf N Xcs YQns MLns → c < 2 ^ conf.Nb) := by
  constructor
  · intro hc
    exact mpcLoop_mem_lt conf N _ _ _ _ _ c hc
  · intro hc
    exact mpcBinLoop_mem_lt conf N _ _ _ _ _ _ c hc

/-- C4: for a reference sequence of length `L > N`, both engines return
exactly `L - N` codes: the loop runs `X.size - N_PRED` iterations and
appends one code per iteration. -/
theorem mpc_codes_count (conf : MPC) (N : ℕ) (Xcs YQns MLns : List ℚ)
    (_hL : N < Xcs.length) :
    (MPC.get_codes conf N Xcs YQns MLns).length = Xcs.length - N ∧
    (MPC_BIN.get_codes conf N Xcs YQns MLns).length = Xcs.length - N :=
  ⟨mpc_get_codes_length conf N Xcs YQns MLns,
   mpc_bin_get_codes_length conf N Xcs YQns MLns⟩

theorem mpc_codes_in_range_witness :
    1 < 2 ^ cfgA.Nb ∧ 1 < 2 ^ cfgA.Nb :=
  ⟨(mpc_codes_in_range cfgA 1 [0, 0] [-1, 0] [-1, 0] 1).1
      (by with_unfolding_all decide),
   (mpc_codes_in_range cfgA 1 [0, 0] [-1, 0] [-1, 0] 1).2
      (by with_unfolding_all decide)⟩

theorem mpc_codes_count_witness :
    (MPC.get_codes cfgA 1 [0, 0, 0] [-1, 0] [-1, 0]).length = 3 - 1 ∧
    (MPC_BIN.get_codes cfgA 1 [0, 0, 0] [-1, 0] [-1, 0]).length = 3 - 1 :=
  mpc_codes_count cfgA 1 [0, 0, 0] [-1, 0] [-1, 0] (by decide)

/-! ## Equivalence of the integer and binary one-hot encodings (C5) -/

theorem binObj_eq_intObj (conf : MPC) (QLI : List ℚ)
    (hQ : ∀ c, c < 2 ^ conf.Nb → QLI.getD c 0 = (c : ℚ)) :
    ∀ (u : List ℕ) (st : Fin conf.n → ℚ) (refs : List ℚ),
      (∀ c ∈ u, c < 2 ^ conf.Nb) →
      binObj conf QLI st u refs = intObj conf st u refs := by
  intro u
  induction u with
  | nil => intro st refs _; rfl
  | cons c cs ih =>
    intro st refs hb
    simp only [binObj, intObj]
    rw [hQ c (hb c (List.mem_cons_self c cs))]
    rw [ih (conf.state_prediction st ((c : ℚ) - refs.headD 0)) refs.tail
      (fun d hd => hb d (List.mem_cons_of_mem _ hd))]

theorem solveBin_eq_solveInt (conf : MPC) (N : ℕ) (QLI : List ℚ)
    (st : Fin conf.n → ℚ) (refs : List ℚ)
    (hQ : ∀ c, c < 2 ^ conf.Nb → QLI.getD c 0 = (c : ℚ)) :
    solveBinHorizon conf N QLI st refs = solveIntHorizon conf N st refs := by
  unfold solveBinHorizon solveIntHorizon
  cases h : codeSeqs (2 ^ conf.Nb) N with
  | nil => rfl
  | cons a rest =>
    apply minBy_congr
    intro u hu
    have hmem : u ∈ codeSeqs (2 ^ conf.Nb) N := by rw [h]; exact hu
    exact binObj_eq_intObj conf QLI hQ u st refs (mem_codeSeqs.mp hmem).2

theorem mpcBinLoop_eq_mpcLoop (conf : MPC) (N : ℕ) (X QLI QLM : List ℚ)
    (hQ : ∀ c, c < 2 ^ conf.Nb → QLI.getD c 0 = (c : ℚ)) :
    ∀ steps j st, mpcBinLoop conf N X QLI QLM steps j st =
      mpcLoop conf N X (qlsOf conf.QMODEL QLI QLM) steps j st := by
  intro steps
  induction steps with
  | zero => intro j st; rfl
  | succ k ih =>
    intro j st
    rw [mpcBinLoop, mpcLoop]
    rw [solveBin_eq_solveInt conf N QLI st (winList X j N) hQ]
    rw [ih]

/-- C5: when the scaled ideal level table is affine-consistent (the scaled
level of code `c` equals `c` itself, as for the ideal staircase), the
integer encoding (`MPC.get_codes`) and the binary one-hot encoding
(`MPC_BIN.get_codes`) return the same code sequence for every reference
input: under that hypothesis the two per-step objectives coincide on every
feasible code sequence, and the exact solver (deterministic global
minimiser) returns the same horizon solution, so the loops agree.  The
statement holds for every `Nb` and every horizon, hence in particular for
`Nb` in 3..4 and `N` in 1..2. -/
theorem mpc_int_bin_encoding_equiv (conf : MPC) (N : ℕ)
    (Xcs YQns MLns : List ℚ)
    (hQ : ∀ c, c < 2 ^ conf.Nb →
      (YQns.map conf.q_scaling).getD c 0 = (c : ℚ)) :
    MPC.get_codes conf N Xcs YQns MLns =
      MPC_BIN.get_codes conf N Xcs YQns MLns := by
  rw [show MPC_BIN.get_codes conf N Xcs YQns MLns =
      mpcBinLoop conf N (Xcs.map conf.q_scaling) (YQns.map conf.q_scaling)
        (MLns.map conf.q_scaling) ((Xcs.map conf.q_scaling).length - N) 0
        (fun _ => 0) from rfl]
  rw [mpcBinLoop_eq_mpcLoop conf N _ _ _ hQ]
  rw [show MPC.get_codes conf N Xcs YQns MLns =
      mpcLoop conf N (Xcs.map conf.q_scaling)
        ((qlsOf conf.QMODEL YQns MLns).map conf.q_scaling)
        ((Xcs.map conf.q_scaling).length - N) 0 (fun _ => 0) from rfl]
  have hq : (qlsOf conf.QMODEL YQns MLns).map conf.q_scaling =
      qlsOf conf.QMODEL (YQns.map conf.q_scaling)
        (MLns.map conf.q_scaling) := by
    cases h : conf.QMODEL <;> simp [qlsOf, h]
  rw [hq]

theorem mpc_int_bin_encoding_equiv_witness :
    MPC.get_codes cfgB 1 [0, 1] yqB [0, 0, 0, 0, 0, 0, 0, 0] =
      MPC_BIN.get_codes cfgB 1 [0, 1] yqB [0, 0, 0, 0, 0, 0, 0, 0] :=
  mpc_int_bin_encoding_equiv cfgB 1 [0, 1] yqB [0, 0, 0, 0, 0, 0, 0, 0]
    (by with_unfolding_all decide)

/-! ## The constant mid-code reference scenario (C6) -/

theorem getD_replicate {α : Type} (a d : α) {L m : ℕ} (h : m < L) :
    (List.replicate L a).getD m d = a := by
  rw [List.getD_eq_getElem?_getD, List.getElem?_replicate, if_pos h]
  rfl

/-- C6 counterexample: in the claimed scenario (`N_PRED = 1`, `D = 0`) the
per-step objective is `(C @ x_0)^2`, which does not depend on the
control variable at all, so the solver's choice is arbitrary rather than
forced to `8`; the modelled exact solver (deterministic lexicographic tie
rule) returns code `0` at every step, and the run on a 3-sample constant
mid-code reference yields `[0, 0]`, not `[8, 8]`. -/
theorem mpc_constant_mid_ref_counterexample :
    MPC.get_codes cfgC6 1 [0, 0, 0] yqC6 yqC6 = [0, 0] ∧
    MPC.get_codes cfgC6 1 [0, 0, 0] yqC6 yqC6 ≠ List.replicate 2 8 := by
  with_unfolding_all decide

theorem cfgC6_loop_replicate :
    ∀ steps j L, j + steps + 2 ≤ L →
      mpcLoop cfgC6 2 (List.replicate L 8) (yqC6.map cfgC6.q_scaling)
        steps j (fun _ => 0) = List.replicate steps 8 := by
  intro steps
  induction steps with
  | zero => intro j L _; rfl
  | succ k ih =>
    intro j L hL
    simp only [mpcLoop]
    have hwin : winList (List.replicate L (8 : ℚ)) j 2 =
        [(List.replicate L (8 : ℚ)).getD (j + 0) 0,
         (List.replicate L (8 : ℚ)).getD (j + 1) 0] := rfl
    rw [hwin, getD_replicate _ _ (show j + 0 < L by omega),
      getD_replicate _ _ (show j + 1 < L by omega)]
    rw [show solveIntHorizon cfgC6 2 (fun _ => 0) [8, 8] = [8, 0] from by
      with_unfolding_all decide]
    rw [show (([8, 0] : List ℕ).headD 0) = 8 from rfl]
    rw [getD_replicate _ _ (show j < L by omega)]
    rw [show cfgC6.state_prediction (fun _ => 0)
        ((yqC6.map cfgC6.q_scaling).getD 8 0 - 8) = (fun _ => 0) from by
      with_unfolding_all decide]
    rw [List.replicate_succ, ih (j + 1) L (by omega)]

/-- C6 amended: with the horizon raised from `N = 1` to `N = 2` (the
minimal change forced by the counterexample: with `D = 0` the control
only enters the objective through the next state, so a one-step horizon
never sees it), the scenario behaves as claimed: for a constant mid-code
reference of any length `L` the engine returns the constant code `8` for
all `L - 2` output samples. -/
theorem mpc_constant_mid_ref_horizon_two (L : ℕ) :
    MPC.get_codes cfgC6 2 (List.replicate L 0) yqC6 yqC6 =
      List.replicate (L - 2) 8 := by
  rw [show MPC.get_codes cfgC6 2 (List.replicate L 0) yqC6 yqC6 =
      mpcLoop cfgC6 2 ((List.replicate L (0 : ℚ)).map cfgC6.q_scaling)
        ((qlsOf cfgC6.QMODEL yqC6 yqC6).map cfgC6.q_scaling)
        (((List.replicate L (0 : ℚ)).map cfgC6.q_scaling).length - 2) 0
        (fun _ => 0) from rfl]
  have hmap : (List.replicate L (0 : ℚ)).map cfgC6.q_scaling =
      List.replicate L 8 := by
    rw [List.map_replicate,
      show cfgC6.q_scaling 0 = 8 from by with_unfolding_all decide]
  have hqls : (qlsOf cfgC6.QMODEL yqC6 yqC6).map cfgC6.q_scaling =
      yqC6.map cfgC6.q_scaling := rfl
  rw [hmap, hqls, List.length_replicate]
  rcases Nat.lt_or_ge L 2 with h | h
  · interval_cases L <;> rfl
  · exact cfgC6_loop_replicate (L - 2) 0 L (by omega)

/-! ## Construction performs no validation (C7) -/

/-- C7 counterexample: constructing `MPC`/`MPC_BIN` with `Nb = 0` and
`Qstep = 0` — both invalid per the claim — succeeds: `__init__` contains
no validation and no raise, so the `Except`-valued construction returns
`Except.ok` with a fully-formed instance storing `Nb = 0` and
`Qstep = |0| = 0`; no ConfigError-class failure occurs at construction. -/
theorem mpc_init_accepts_invalid_config :
    MPC.initE 1 0 0 QModel.ideal (fun _ _ => 0) (fun _ => 0) (fun _ => 0) 0 =
      Except.ok
        (MPC.init 1 0 0 QModel.ideal (fun _ _ => 0) (fun _ => 0)
          (fun _ => 0) 0) ∧
    (MPC.init 1 0 0 QModel.ideal (fun _ _ => 0) (fun _ => 0) (fun _ => 0)
      0).Nb = 0 ∧
    (MPC.init 1 0 0 QModel.ideal (fun _ _ => 0) (fun _ => 0) (fun _ => 0)
      0).Qstep = 0 := by
  refine ⟨rfl, rfl, ?_⟩
  with_unfolding_all rfl

/-- C7 amended: construction of `MPC`/`MPC_BIN` performs no validation
and never fails, whatever the arguments (including `Nb = 0`, non-positive
`Qstep`, or any matrices): the constructor merely stores its arguments,
with `Qstep` replaced by `abs(Qstep)`; configuration errors surface only
later, when the instance is used. -/
theorem mpc_init_never_fails (n Nb : ℕ) (Qstep : ℚ) (QMODEL : QModel)
    (A : Fin n → Fin n → ℚ) (B : Fin n → ℚ) (C : Fin n → ℚ) (D : ℚ) :
    MPC.initE n Nb Qstep QMODEL A B C D =
      Except.ok (MPC.init n Nb Qstep QMODEL A B C D) ∧
    (MPC.init n Nb Qstep QMODEL A B C D).Qstep = |Qstep| ∧
    (MPC.init n Nb Qstep QMODEL A B C D).Nb = Nb ∧
    (MPC.init n Nb Qstep QMODEL A B C D).QMODEL = QMODEL :=
  ⟨rfl, rfl, rfl, rfl⟩

/-! ## Sign of Qstep is irrelevant (C9) -/

/-- C9: for every `Qstep ≠ 0`, an engine constructed with `-Qstep` is
observationally identical to one constructed with `Qstep` (all other
arguments equal): the constructor stores `abs(Qstep)`, so the two
instances are equal as records, and `q_scaling`, `MPC.get_codes` and
`MPC_BIN.get_codes` return equal results on every input. -/
theorem mpc_qstep_sign_invariant (n Nb : ℕ) (Qstep : ℚ) (QMODEL : QModel)
    (A : Fin n → Fin n → ℚ) (B : Fin n → ℚ) (C : Fin n → ℚ) (D : ℚ)
    (_h : Qstep ≠ 0) :
    MPC.init n Nb (-Qstep) QMODEL A B C D =
      MPC.init n Nb Qstep QMODEL A B C D ∧
    (∀ x, (MPC.init n Nb (-Qstep) QMODEL A B C D).q_scaling x =
      (MPC.init n Nb Qstep QMODEL A B C D).q_scaling x) ∧
    (∀ N Xcs YQns MLns,
      MPC.get_codes (MPC.init n Nb (-Qstep) QMODEL A B C D)
          N Xcs YQns MLns =
        MPC.get_codes (MPC.init n Nb Qstep QMODEL A B C D)
          N Xcs YQns MLns) ∧
    (∀ N Xcs YQns MLns,
      MPC_BIN.get_codes (MPC.init n Nb (-Qstep) QMODEL A B C D)
          N Xcs YQns MLns =
        MPC_BIN.get_codes (MPC.init n Nb Qstep QMODEL A B C D)
          N Xcs YQns MLns) := by
  have h1 : MPC.init n Nb (-Qstep) QMODEL A B C D =
      MPC.init n Nb Qstep QMODEL A B C D := by
    unfold MPC.init
    rw [abs_neg]
  exact ⟨h1, fun x => by rw [h1], fun N Xcs YQns MLns => by rw [h1],
    fun N Xcs YQns MLns => by rw [h1]⟩

theorem mpc_qstep_sign_invariant_witness :
    (MPC.init 1 2 (-2) QModel.ideal (fun _ _ => 0) (fun _ => 1)
      (fun _ => 1) 1).q_scaling 3 =
    (MPC.init 1 2 2 QModel.ideal (fun _ _ => 0) (fun _ => 1)
      (fun _ => 1) 1).q_scaling 3 ∧
    MPC.get_codes (MPC.init 1 2 (-2) QModel.ideal (fun _ _ => 0)
        (fun _ => 1) (fun _ => 1) 1) 1 [0, 0] [0, 1, 2, 3] [0, 1, 2, 3] =
    MPC.get_codes (MPC.init 1 2 2 QModel.ideal (fun _ _ => 0)
        (fun _ => 1) (fun _ => 1) 1) 1 [0, 0] [0, 1, 2, 3] [0, 1, 2, 3] :=
  ⟨(mpc_qstep_sign_invariant 1 2 2 QModel.ideal (fun _ _ => 0)
      (fun _ => 1) (fun _ => 1) 1 (by norm_num)).2.1 3,
   (mpc_qstep_sign_invariant 1 2 2 QModel.ideal (fun _ _ => 0)
      (fun _ => 1) (fun _ => 1) 1 (by norm_num)).2.2.1
      1 [0, 0] [0, 1, 2, 3] [0, 1, 2, 3]⟩

/-! ## The measured table does not influence the optimisation (C10) -/

theorem mpcBinLoop_ignores_QLM_ideal (conf : MPC)
    (hQ : conf.QMODEL = QModel.ideal) (N : ℕ) (X QLI QLM QLM' : List ℚ) :
    ∀ steps j st, mpcBinLoop conf N X QLI QLM steps j st =
      mpcBinLoop conf N X QLI QLM' steps j st := by
  intro steps
  induction steps with
  | zero => intro j st; rfl
  | succ k ih =>
    intro j st
    rw [mpcBinLoop, mpcBinLoop, hQ]
    simp only [qlsOf]
    rw [ih]

/-- C10: in `MPC_BIN.get_codes` the per-step optimisation problem is
built exclusively from the scaled ideal table `QL_I`; the scaled measured
table `QL_M` enters only the post-solve state update when `QMODEL = 2`.
Consequently two runs that differ only in `MLns` choose the same code at
the first iteration (the initial state is the zero vector in both, and
the solve does not read `QL_M`), and with `QMODEL = 1` the entire output
code sequence is independent of `MLns`. -/
theorem mpc_bin_measured_noninterference (conf : MPC) (N : ℕ)
    (Xcs YQns MLns MLns' : List ℚ) :
    ((MPC_BIN.get_codes conf N Xcs YQns MLns).headD 0 =
      (MPC_BIN.get_codes conf N Xcs YQns MLns').headD 0) ∧
    (conf.QMODEL = QModel.ideal →
      MPC_BIN.get_codes conf N Xcs YQns MLns =
        MPC_BIN.get_codes conf N Xcs YQns MLns') := by
  constructor
  · rw [show MPC_BIN.get_codes conf N Xcs YQns MLns =
        mpcBinLoop conf N (Xcs.map conf.q_scaling)
          (YQns.map conf.q_scaling) (MLns.map conf.q_scaling)
          ((Xcs.map conf.q_scaling).length - N) 0 (fun _ => 0) from rfl]
    rw [show MPC_BIN.get_codes conf N Xcs YQns MLns' =
        mpcBinLoop conf N (Xcs.map conf.q_scaling)
          (YQns.map conf.q_scaling) (MLns'.map conf.q_scaling)
          ((Xcs.map conf.q_scaling).length - N) 0 (fun _ => 0) from rfl]
    cases h : (Xcs.map conf.q_scaling).length - N with
    | zero => rfl
    | succ k => rfl
  · intro hQ
    rw [show MPC_BIN.get_codes conf N Xcs YQns MLns =
        mpcBinLoop conf N (Xcs.map conf.q_scaling)
          (YQns.map conf.q_scaling) (MLns.map conf.q_scaling)
          ((Xcs.map conf.q_scaling).length - N) 0 (fun _ => 0) from rfl]
    rw [show MPC_BIN.get_codes conf N Xcs YQns MLns' =
        mpcBinLoop conf N (Xcs.map conf.q_scaling)
          (YQns.map conf.q_scaling) (MLns'.map conf.q_scaling)
          ((Xcs.map conf.q_scaling).length - N) 0 (fun _ => 0) from rfl]
    rw [mpcBinLoop_ignores_QLM_ideal conf hQ N _ _
      (MLns'.map conf.q_scaling)]

theorem mpc_bin_measured_noninterference_witness :
    ((MPC_BIN.get_codes cfgA 1 [0, 0] [-1, 0] [-1, 0]).headD 0 =
      (MPC_BIN.get_codes cfgA 1 [0, 0] [-1, 0] [5, 7]).headD 0) ∧
    (MPC_BIN.get_codes cfgA 1 [0, 0] [-1, 0] [-1, 0] =
      MPC_BIN.get_codes cfgA 1 [0, 0] [-1, 0] [5, 7]) :=
  ⟨(mpc_bin_measured_noninterference cfgA 1 [0, 0] [-1, 0] [-1, 0]
      [5, 7]).1,
   (mpc_bin_measured_noninterference cfgA 1 [0, 0] [-1, 0] [-1, 0]
      [5, 7]).2 rfl⟩

/-! ## Solver failure is not fatal in MPC_BIN: the stale-values bug (C2) -/

/-- C2 (exhibiting the code bug): with a 3-sample reference (two loop
iterations) where the solver returns the one-hot values `[0, 1]` (code 1)
at step 0 and fails (`m.Status != GRB.OPTIMAL`) at step 1, the source of
`MPC_BIN.get_codes` does NOT abort: the `else` branch only constructs
`SystemExit("No optimal solution found.")` without raising it, so the
stale step-0 `values` are silently decoded again and a second code is
appended — the run completes with `[1, 1]` where the claim requires
abortion with no second code and no stale reuse.  Only when the very
first iteration fails does the run abort (`values` unbound, `NameError`),
second conjunct. -/
theorem mpc_bin_stale_solution_on_solver_failure :
    MPC_BIN.get_codes_fallible cfgA 1 [0, 0, 0] [-1, 0] [-1, 0]
      (fun j => if j = 0 then some [0, 1] else none) = some [1, 1] ∧
    MPC_BIN.get_codes_fallible cfgA 1 [0, 0, 0] [-1, 0] [-1, 0]
      (fun _ => none) = none := by
  with_unfolding_all decide

/-! ## Rate-limit enforcement in the spec-modelled MHOQ_RLIM_RM (C8) -/

theorem rlCodeSeqs_cons {K s N : ℕ} {prev : Option ℕ} {u : List ℕ}
    (hu : u ∈ rlCodeSeqs K s prev (N + 1)) :
    ∃ c u', u = c :: u' ∧ c < K ∧ nearOk s prev c = true ∧
      u' ∈ rlCodeSeqs K s (some c) N := by
  simp only [rlCodeSeqs, List.mem_flatMap, List.mem_map, List.mem_filter,
    List.mem_range] at hu
  obtain ⟨c, ⟨hcK, hnear⟩, u', hu', rfl⟩ := hu
  exact ⟨c, u', rfl, hcK, hnear, hu'⟩

theorem replicate_mem_rlCodeSeqs {K s : ℕ} :
    ∀ (N p : ℕ), p < K →
      List.replicate N p ∈ rlCodeSeqs K s (some p) N := by
  intro N
  induction N with
  | zero => intro p _; simp [rlCodeSeqs]
  | succ N ih =>
    intro p hp
    rw [List.replicate_succ]
    simp only [rlCodeSeqs, List.mem_flatMap, List.mem_map, List.mem_filter,
      List.mem_range]
    exact ⟨p, ⟨hp, by simp [nearOk]⟩, List.replicate N p, ih p hp, rfl⟩

theorem rlCodeSeqs_some_ne_nil {K s N p : ℕ} (hp : p < K) :
    rlCodeSeqs K s (some p) N ≠ [] :=
  List.ne_nil_of_mem (replicate_mem_rlCodeSeqs N p hp)

theorem rlCodeSeqs_none_ne_nil {K s N : ℕ} (hK : 0 < K) :
    rlCodeSeqs K s none N ≠ [] := by
  cases N with
  | zero => simp [rlCodeSeqs]
  | succ N =>
    refine List.ne_nil_of_mem (a := 0 :: List.replicate N 0) ?_
    simp only [rlCodeSeqs, List.mem_flatMap, List.mem_map, List.mem_filter,
      List.mem_range]
    exact ⟨0, ⟨hK, by simp [nearOk]⟩, List.replicate N 0,
      replicate_mem_rlCodeSeqs N 0 hK, rfl⟩

theorem solveRlHorizon_mem (conf : MPC) (N s : ℕ) (prev : Option ℕ)
    (st : Fin conf.n → ℚ) (refs : List ℚ)
    (hne : rlCodeSeqs (2 ^ conf.Nb) s prev N ≠ []) :
    solveRlHorizon conf N s prev st refs ∈
      rlCodeSeqs (2 ^ conf.Nb) s prev N := by
  rw [solveRlHorizon]
  split
  · exact absurd (by assumption) hne
  · next a rest h =>
    rw [h]
    exact minBy_mem _ a rest

theorem mhoqRlLoop_chain (conf : MPC) (N s : ℕ) (X QLS : List ℚ)
    (hN : 1 ≤ N) :
    ∀ steps j st p, p < 2 ^ conf.Nb →
      List.Chain (stepOkI s) p
        (mhoqRlLoop conf N s X QLS steps j st (some p)) := by
  obtain ⟨N', rfl⟩ : ∃ N', N = N' + 1 := ⟨N - 1, by omega⟩
  intro steps
  induction steps with
  | zero => intro j st p hp; exact List.Chain.nil
  | succ k ih =>
    intro j st p hp
    have hmem := solveRlHorizon_mem conf (N' + 1) s (some p) st
      (winList X j (N' + 1)) (rlCodeSeqs_some_ne_nil hp)
    obtain ⟨c, u', hequ, hcK, hnear, -⟩ := rlCodeSeqs_cons hmem
    have hhead : (solveRlHorizon conf (N' + 1) s (some p) st
        (winList X j (N' + 1))).headD 0 = c := by
      rw [hequ]
      rfl
    simp only [mhoqRlLoop]
    rw [hhead]
    exact List.Chain.cons (by simpa [nearOk, stepOkI] using hnear)
      (ih (j + 1) _ c hcK)

theorem rlCodeSeqs_chain {K s : ℕ} :
    ∀ (N : ℕ) (prev : Option ℕ) (u : List ℕ),
      u ∈ rlCodeSeqs K s prev N →
      (∀ p, prev = some p → List.Chain (stepOkI s) p u) ∧
      List.Chain' (stepOkI s) u := by
  intro N
  induction N with
  | zero =>
    intro prev u hu
    simp only [rlCodeSeqs, List.mem_singleton] at hu
    subst hu
    exact ⟨fun p _ => List.Chain.nil, trivial⟩
  | succ N ih =>
    intro prev u hu
    obtain ⟨c, u', rfl, hcK, hnear, hu'⟩ := rlCodeSeqs_cons hu
    obtain ⟨hchain, -⟩ := ih (some c) u' hu'
    have hcu : List.Chain (stepOkI s) c u' := hchain c rfl
    refine ⟨?_, hcu⟩
    intro p hp
    subst hp
    exact List.Chain.cons (by simpa [nearOk, stepOkI] using hnear) hcu

/-- C8 (spec-modelled): in the rate-limited variant with maximum
code-to-code step `s`, every pair of consecutive codes of the returned
sequence differs by at most `s` (each per-iteration solution's first code
is within `s` of the last applied code, which is the previously emitted
code), and the constraint `|u_i - u_{i-1}| <= s` holds for every adjacent
pair of horizon decision variables of every feasible candidate, including
the pair formed with the last applied code. -/
theorem mhoq_rlim_rate_limit (conf : MPC) (N : ℕ)
    (Xcs YQns MLns : List ℚ) (s : ℕ) (hN : 1 ≤ N) :
    List.Chain' (stepOkI s)
      (MHOQ_RLIM_RM.get_codes conf N Xcs YQns MLns s) ∧
    (∀ (prev : Option ℕ) (u : List ℕ),
      u ∈ rlCodeSeqs (2 ^ conf.Nb) s prev N →
      List.Chain' (stepOkI s) u ∧
      ∀ p, prev = some p → List.Chain (stepOkI s) p u) := by
  constructor
  · rw [show MHOQ_RLIM_RM.get_codes conf N Xcs YQns MLns s =
        mhoqRlLoop conf N s (Xcs.map conf.q_scaling)
          ((qlsOf conf.QMODEL YQns MLns).map conf.q_scaling)
          ((Xcs.map conf.q_scaling).length - N) 0 (fun _ => 0) none
        from rfl]
    cases hsteps : (Xcs.map conf.q_scaling).length - N with
    | zero => trivial
    | succ k =>
      obtain ⟨N', rfl⟩ : ∃ N', N = N' + 1 := ⟨N - 1, by omega⟩
      simp only [mhoqRlLoop]
      have hne : rlCodeSeqs (2 ^ conf.Nb) s none (N' + 1) ≠ [] :=
        rlCodeSeqs_none_ne_nil (Nat.pos_pow_of_pos _ two_pos)
      have hmem := solveRlHorizon_mem conf (N' + 1) s none (fun _ => 0)
        (winList (Xcs.map conf.q_scaling) 0 (N' + 1)) hne
      obtain ⟨c, u', hequ, hcK, -, -⟩ := rlCodeSeqs_cons hmem
      have hhead : (solveRlHorizon conf (N' + 1) s none (fun _ => 0)
          (winList (Xcs.map conf.q_scaling) 0 (N' + 1))).headD 0 = c := by
        rw [hequ]
        rfl
      rw [hhead]
      show List.Chain (stepOkI s) c _
      exact mhoqRlLoop_chain conf (N' + 1) s _ _ (by omega) k 1 _ c hcK
  · intro prev u hu
    obtain ⟨h1, h2⟩ := rlCodeSeqs_chain N prev u hu
    exact ⟨h2, h1⟩

theorem mhoq_rlim_rate_limit_witness :
    List.Chain' (stepOkI 1)
      (MHOQ_RLIM_RM.get_codes cfgB 1 [0, 4, 0] yqB yqB 1) :=
  (mhoq_rlim_rate_limit cfgB 1 [0, 4, 0] yqB yqB 1 (by decide)).1
